import Mathlib

/-!
Shallow embedding of the rateless IBLT core (src/src/symbol.rs, src/src/mapping.rs,
src/src/encoder.rs) and proofs about the claims of the specification.

Modelling conventions:
* Bytes (`u8`) are `Nat` values below 256; XOR of such values stays below 256, so no
  wrapping is needed.  The 64-bit hash accumulator only ever XORs 64-bit values, so it
  is a plain `Nat` as well.  The signed 64-bit `count` is an `Int` (its value never
  approaches the `i64` boundaries in any scenario considered here).
* The user-supplied `Symbol` trait is a bundle `SymbolSpec` of the byte length,
  `encode_to_bytes`, `decode_from_bytes` and the (overridable) `hash_` function.
* `RandomMapping::next` performs one 64-bit floating point computation,
  `diff = ((last_idx as f64 + 1.5) * (2^32 / (r as f64 + 1.0).sqrt() - 1.0)).ceil() as u64`.
  The floating-point expression is abstracted as an oracle `d : Nat -> Nat -> Nat`
  taking the old `last_idx` and the new prng value `r` and returning the resulting
  `u64` (the `as u64` cast clamps negative values to 0, hence the `Nat` codomain).
  All structural results are proved for every oracle, so they apply in particular to
  the IEEE-754 instance realised by the Rust code.
* Iterators truncated by `take_while` are modelled with an explicit `fuel` bound on the
  number of `next` calls; results are proved for every fuel, hence for the fuel that a
  terminating execution of the Rust code actually uses.
-/

set_option maxRecDepth 100000

/-- The contract of the `Symbol` trait of src/src/symbol.rs:
`BYTE_ARRAY_LENGTH`, `encode_to_bytes`, `decode_from_bytes` and the overridable
64-bit `hash_`. -/
structure SymbolSpec (T : Type) : Type where
  BYTE_ARRAY_LENGTH : Nat
  encode_to_bytes : T → List Nat
  decode_from_bytes : List Nat → T
  hash_ : T → Nat

/-- Bytewise XOR, the `self.sum.iter().zip(other).map(|(x, y)| x ^ y)` pattern used by
`apply`, `combine` and `collapse`.  Like Rust's `zip` it truncates to the shorter
input. -/
def xorBytes (a b : List Nat) : List Nat :=
  List.zipWith (fun x y => x ^^^ y) a b

/-- A coded symbol: byte sum, XORed hash and signed count (src/src/symbol.rs).  The
type parameter plays the role of the `PhantomData` marker. -/
structure CodedSymbol (T : Type) : Type where
  sum : List Nat
  hash : Nat
  count : Int
deriving DecidableEq

/-- Result of peeling: the extracted symbol tagged local or remote, or nothing. -/
inductive PeelableResult (T : Type) : Type where
  | Local (s : T)
  | Remote (s : T)
  | NotPeelable
deriving DecidableEq

/-- Direction of an `apply`. -/
inductive Direction : Type where
  | Add
  | Remove
deriving DecidableEq

variable {T : Type}

/-- `CodedSymbol::new`: all-zero sum of the statically known length, zero hash, zero
count. -/
def CodedSymbol.new (S : SymbolSpec T) : CodedSymbol T :=
  ⟨List.replicate S.BYTE_ARRAY_LENGTH 0, 0, 0⟩

/-- `CodedSymbol::apply`: XOR the encoding into `sum`, XOR the hash into `hash`, and
adjust `count` by the direction. -/
def CodedSymbol.apply (S : SymbolSpec T) (c : CodedSymbol T) (s : T)
    (direction : Direction) : CodedSymbol T :=
  ⟨xorBytes c.sum (S.encode_to_bytes s),
   c.hash ^^^ S.hash_ s,
   match direction with
   | Direction.Add => c.count + 1
   | Direction.Remove => c.count - 1⟩

/-- `CodedSymbol::combine`: XOR of sums and hashes, addition of counts. -/
def CodedSymbol.combine (c b : CodedSymbol T) : CodedSymbol T :=
  ⟨xorBytes c.sum b.sum, c.hash ^^^ b.hash, c.count + b.count⟩

/-- `CodedSymbol::collapse`: XOR of sums and hashes, subtraction of counts. -/
def CodedSymbol.collapse (c b : CodedSymbol T) : CodedSymbol T :=
  ⟨xorBytes c.sum b.sum, c.hash ^^^ b.hash, c.count - b.count⟩

/-- `CodedSymbol::is_peelable`: count is plus or minus one and the hash matches the
hash of the decoded sum. -/
def CodedSymbol.is_peelable (S : SymbolSpec T) (c : CodedSymbol T) : Bool :=
  (c.count == 1 || c.count == -1) &&
    (c.hash == S.hash_ (S.decode_from_bytes c.sum))

/-- `CodedSymbol::peel`: on success return the tagged symbol and reset the coded
symbol to the `new()` state; otherwise return `NotPeelable` and leave it unchanged.
The mutation of `&mut self` is modelled by returning the new state. -/
def CodedSymbol.peel (S : SymbolSpec T) (c : CodedSymbol T) :
    PeelableResult T × CodedSymbol T :=
  if c.is_peelable S then
    (if c.count == 1 then PeelableResult.Local (S.decode_from_bytes c.sum)
     else PeelableResult.Remote (S.decode_from_bytes c.sum),
     CodedSymbol.new S)
  else
    (PeelableResult.NotPeelable, c)

/-- `CodedSymbol::peel_peek`: same decision as `peel` without the reset. -/
def CodedSymbol.peel_peek (S : SymbolSpec T) (c : CodedSymbol T) : PeelableResult T :=
  if c.is_peelable S then
    if c.count == 1 then PeelableResult.Local (S.decode_from_bytes c.sum)
    else PeelableResult.Remote (S.decode_from_bytes c.sum)
  else
    PeelableResult.NotPeelable

/-- `CodedSymbol::is_empty`: zero count and zero hash (`sum` is not inspected). -/
def CodedSymbol.is_empty (c : CodedSymbol T) : Bool :=
  c.count == 0 && c.hash == 0

/-- The wrapping multiplier of the index mapping prng (src/src/mapping.rs). -/
def PRNG_MULTIPLIER : Nat := 0xda942042e4dd58b5

/-- State of `RandomMapping` (src/src/mapping.rs). -/
structure RandomMapping : Type where
  prng : Nat
  last_idx : Nat
deriving DecidableEq

/-- `RandomMapping::new`: seed the prng from the symbol's hash, `last_idx = 0`. -/
def RandomMapping.new (h : Nat) : RandomMapping := ⟨h, 0⟩

/-- `RandomMapping::next` with the floating-point diff computation abstracted as the
oracle `d old_last_idx new_prng` (see the header).  Returns the yielded index and the
updated state: the prng advances by a wrapping 64-bit multiply, the old `last_idx` is
yielded, and `last_idx` grows by the oracle's value. -/
def RandomMapping.next (d : Nat → Nat → Nat) (m : RandomMapping) :
    Nat × RandomMapping :=
  let prng := (m.prng * PRNG_MULTIPLIER) % (2 ^ 64)
  (m.last_idx, ⟨prng, m.last_idx + d m.last_idx prng⟩)

/-- Loop of `mapPos`: keep yielding indices while they are below `bound`
(the `take_while(|&x| x < bound)` pattern), spending one unit of fuel per `next`. -/
def mapPosGo (d : Nat → Nat → Nat) (bound : Nat) : Nat → RandomMapping → List Nat
  | 0, _ => []
  | fuel + 1, m =>
    match m.next d with
    | (i, m') => if i < bound then i :: mapPosGo d bound fuel m' else []

/-- The positions a symbol with hash `h` contributes to, truncated below `bound`:
`RandomMapping::new` followed by `take_while(|&x| x < bound)`. -/
def mapPos (d : Nat → Nat → Nat) (h bound fuel : Nat) : List Nat :=
  mapPosGo d bound fuel (RandomMapping.new h)

/-- The `BLOCK_SIZE` constant of src/src/encoder.rs. -/
def BLOCK_SIZE : Nat := 1024

/-- One `self.coded_symbols[i].apply(&item, dir)` at index `i` (in the Rust code the
index is always in range; out of range leaves the block unchanged). -/
def applyAt (S : SymbolSpec T) (cs : List (CodedSymbol T)) (s : T)
    (dir : Direction) (i : Nat) : List (CodedSymbol T) :=
  match cs[i]? with
  | some c => cs.set i (c.apply S s dir)
  | none => cs

/-- Apply a symbol at each position of a list, in order. -/
def applyAtPositions (S : SymbolSpec T) (cs : List (CodedSymbol T))
    (ps : List Nat) (s : T) (dir : Direction) : List (CodedSymbol T) :=
  ps.foldl (fun acc i => applyAt S acc s dir i) cs

/-- `RatelessIBLT::extend_coded_symbols` as a function on the coded-symbol vector:
if `index` is already materialised do nothing; otherwise append fresh `new()` cells up
to `max (index + 1) (len + blockSize)` and fold every item of one set traversal into
the new positions (`take_while(x < extend_until).filter(x >= current_len)`).
`blockSize` is the `BLOCK_SIZE` constant, kept as a parameter so that its semantic
irrelevance can be stated. -/
def extendSymbols (S : SymbolSpec T) (d : Nat → Nat → Nat) (fuel blockSize : Nat)
    (set : List T) (cs : List (CodedSymbol T)) (index : Nat) :
    List (CodedSymbol T) :=
  if index < cs.length then cs
  else
    set.foldl
      (fun acc item =>
        applyAtPositions S acc
          ((mapPos d (S.hash_ item) (max (index + 1) (cs.length + blockSize)) fuel).filter
            (fun x => decide (cs.length ≤ x)))
          item Direction.Add)
      (cs ++ List.replicate (max (index + 1) (cs.length + blockSize) - cs.length)
        (CodedSymbol.new S))

/-- The scan of `peel_one_symbol`: the first non-`NotPeelable` `peel_peek` result. -/
def find_peelable (S : SymbolSpec T) : List (CodedSymbol T) → PeelableResult T
  | [] => PeelableResult.NotPeelable
  | c :: rest =>
    match c.peel_peek S with
    | PeelableResult.Local s => PeelableResult.Local s
    | PeelableResult.Remote s => PeelableResult.Remote s
    | PeelableResult.NotPeelable => find_peelable S rest

/-- `remove_symbol_from_block`: re-derive the peeled symbol's positions below the
block length and apply it there with the inverse direction (`Remove` for a `Local`
result, `Add` for a `Remote` one).  The Rust function panics on `NotPeelable`; that
case is unreachable from `peel_one_symbol` and modelled as the identity. -/
def remove_symbol_from_block (S : SymbolSpec T) (d : Nat → Nat → Nat) (fuel : Nat)
    (block : List (CodedSymbol T)) (symbol_result : PeelableResult T) :
    List (CodedSymbol T) :=
  match symbol_result with
  | PeelableResult.Local s =>
    applyAtPositions S block (mapPos d (S.hash_ s) block.length fuel) s Direction.Remove
  | PeelableResult.Remote s =>
    applyAtPositions S block (mapPos d (S.hash_ s) block.length fuel) s Direction.Add
  | PeelableResult.NotPeelable => block

/-- `peel_one_symbol` (free function of src/src/encoder.rs): scan for the first
peelable coded symbol; on success remove the peeled symbol from the whole block and
return the result together with the updated block. -/
def peel_one_symbol (S : SymbolSpec T) (d : Nat → Nat → Nat) (fuel : Nat)
    (block : List (CodedSymbol T)) : PeelableResult T × List (CodedSymbol T) :=
  match find_peelable S block with
  | PeelableResult.Local s =>
    (PeelableResult.Local s,
     remove_symbol_from_block S d fuel block (PeelableResult.Local s))
  | PeelableResult.Remote s =>
    (PeelableResult.Remote s,
     remove_symbol_from_block S d fuel block (PeelableResult.Remote s))
  | PeelableResult.NotPeelable => (PeelableResult.NotPeelable, block)

/-- The `peel_all_symbols` loop: repeatedly `peel_one_symbol` until `NotPeelable`,
collecting results in peel order.  The Rust loop has no intrinsic bound (and need not
terminate on adversarial blocks, see the claims about termination), so the model
takes an explicit iteration bound `n`. -/
def peel_all_symbols (S : SymbolSpec T) (d : Nat → Nat → Nat) (fuel : Nat) :
    Nat → List (CodedSymbol T) → List (PeelableResult T) × List (CodedSymbol T)
  | 0, block => ([], block)
  | n + 1, block =>
    match peel_one_symbol S d fuel block with
    | (PeelableResult.NotPeelable, block') => ([], block')
    | (r, block') =>
      match peel_all_symbols S d fuel n block' with
      | (rs, block'') => (r :: rs, block'')

/-- The free `combine` of src/src/encoder.rs: positionwise `CodedSymbol::combine`,
truncating to the shorter block. -/
def combine (block_a block_b : List (CodedSymbol T)) : List (CodedSymbol T) :=
  List.zipWith CodedSymbol.combine block_a block_b

/-- The free `collapse` of src/src/encoder.rs: positionwise `CodedSymbol::collapse`,
truncating to the shorter block. -/
def collapse (block_local block_remote : List (CodedSymbol T)) :
    List (CodedSymbol T) :=
  List.zipWith CodedSymbol.collapse block_local block_remote

/-- The free `is_empty` of src/src/encoder.rs: every coded symbol is empty. -/
def is_empty (block : List (CodedSymbol T)) : Bool :=
  block.all (fun x => x.is_empty)

/-- Alias of the free `combine` for use inside struct methods, where the method name
shadows the free name. -/
def combineBlocks : List (CodedSymbol T) → List (CodedSymbol T) → List (CodedSymbol T) :=
  combine

/-- Alias of the free `collapse` for use inside struct methods. -/
def collapseBlocks : List (CodedSymbol T) → List (CodedSymbol T) → List (CodedSymbol T) :=
  collapse

/-- Alias of the free `peel_one_symbol` for use inside struct methods. -/
def peelOneBlock (S : SymbolSpec T) (d : Nat → Nat → Nat) (fuel : Nat)
    (block : List (CodedSymbol T)) : PeelableResult T × List (CodedSymbol T) :=
  peel_one_symbol S d fuel block

/-- Alias of the free `is_empty` for use inside struct methods. -/
def isEmptyBlock (block : List (CodedSymbol T)) : Bool :=
  is_empty block

/-- The managed `RatelessIBLT`: the cached coded-symbol vector plus the re-iterable
set handle, modelled by the list of symbols one traversal yields. -/
structure RatelessIBLT (T : Type) : Type where
  coded_symbols : List (CodedSymbol T)
  set_iterator : List T

/-- `RatelessIBLT::extend_coded_symbols` (method). -/
def RatelessIBLT.extend_coded_symbols (S : SymbolSpec T) (d : Nat → Nat → Nat)
    (fuel : Nat) (r : RatelessIBLT T) (index : Nat) : RatelessIBLT T :=
  ⟨extendSymbols S d fuel BLOCK_SIZE r.set_iterator r.coded_symbols index,
   r.set_iterator⟩

/-- `RatelessIBLT::new`: store the handle and eagerly materialise the first block. -/
def RatelessIBLT.new (S : SymbolSpec T) (d : Nat → Nat → Nat) (fuel : Nat)
    (set : List T) : RatelessIBLT T :=
  RatelessIBLT.extend_coded_symbols S d fuel ⟨[], set⟩ 0

/-- `RatelessIBLT::get_coded_symbol`: extend to the index, then clone the cell (the
index is in range after extension, so the default of `getD` is never used).  The
`&mut self` is modelled by also returning the updated encoder. -/
def RatelessIBLT.get_coded_symbol (S : SymbolSpec T) (d : Nat → Nat → Nat)
    (fuel : Nat) (r : RatelessIBLT T) (index : Nat) :
    CodedSymbol T × RatelessIBLT T :=
  let r' := RatelessIBLT.extend_coded_symbols S d fuel r index
  (r'.coded_symbols.getD index (CodedSymbol.new S), r')

/-- The unmanaged holder: just a vector of received coded symbols. -/
structure UnmanagedRatelessIBLT (T : Type) : Type where
  coded_symbols : List (CodedSymbol T)

/-- `RatelessIBLT::combine`: extend self to the other's length, then positionwise
combine into an unmanaged holder. -/
def RatelessIBLT.combine (S : SymbolSpec T) (d : Nat → Nat → Nat) (fuel : Nat)
    (r : RatelessIBLT T) (other : RatelessIBLT T) :
    UnmanagedRatelessIBLT T × RatelessIBLT T :=
  let r' := RatelessIBLT.extend_coded_symbols S d fuel r other.coded_symbols.length
  (⟨combineBlocks r'.coded_symbols other.coded_symbols⟩, r')

/-- `RatelessIBLT::collapse`: extend self to the other's length, then positionwise
collapse into an unmanaged holder. -/
def RatelessIBLT.collapse (S : SymbolSpec T) (d : Nat → Nat → Nat) (fuel : Nat)
    (r : RatelessIBLT T) (other : UnmanagedRatelessIBLT T) :
    UnmanagedRatelessIBLT T × RatelessIBLT T :=
  let r' := RatelessIBLT.extend_coded_symbols S d fuel r other.coded_symbols.length
  (⟨collapseBlocks r'.coded_symbols other.coded_symbols⟩, r')

/-- `RatelessIBLT::peel_one_symbol` (method): peel on the owned vector. -/
def RatelessIBLT.peel_one_symbol (S : SymbolSpec T) (d : Nat → Nat → Nat)
    (fuel : Nat) (r : RatelessIBLT T) : PeelableResult T × RatelessIBLT T :=
  match peelOneBlock S d fuel r.coded_symbols with
  | (res, cs') => (res, ⟨cs', r.set_iterator⟩)

/-- `RatelessIBLT::is_empty`: extend to index 0 first, then check all cells. -/
def RatelessIBLT.is_empty (S : SymbolSpec T) (d : Nat → Nat → Nat) (fuel : Nat)
    (r : RatelessIBLT T) : Bool × RatelessIBLT T :=
  let r' := RatelessIBLT.extend_coded_symbols S d fuel r 0
  (isEmptyBlock r'.coded_symbols, r')

/-- `UnmanagedRatelessIBLT::new`: no coded symbols. -/
def UnmanagedRatelessIBLT.new (T : Type) : UnmanagedRatelessIBLT T := ⟨[]⟩

/-- `UnmanagedRatelessIBLT::add_coded_symbol`: push one received coded symbol. -/
def UnmanagedRatelessIBLT.add_coded_symbol (u : UnmanagedRatelessIBLT T)
    (other : CodedSymbol T) : UnmanagedRatelessIBLT T :=
  ⟨u.coded_symbols ++ [other]⟩

/-- `UnmanagedRatelessIBLT::combine`. -/
def UnmanagedRatelessIBLT.combine (u other : UnmanagedRatelessIBLT T) :
    UnmanagedRatelessIBLT T :=
  ⟨combineBlocks u.coded_symbols other.coded_symbols⟩

/-- `UnmanagedRatelessIBLT::collapse`. -/
def UnmanagedRatelessIBLT.collapse (u other : UnmanagedRatelessIBLT T) :
    UnmanagedRatelessIBLT T :=
  ⟨collapseBlocks u.coded_symbols other.coded_symbols⟩

/-- `UnmanagedRatelessIBLT::peel_one_symbol`. -/
def UnmanagedRatelessIBLT.peel_one_symbol (S : SymbolSpec T) (d : Nat → Nat → Nat)
    (fuel : Nat) (u : UnmanagedRatelessIBLT T) :
    PeelableResult T × UnmanagedRatelessIBLT T :=
  match peelOneBlock S d fuel u.coded_symbols with
  | (res, cs') => (res, ⟨cs'⟩)

/-- `UnmanagedRatelessIBLT::is_empty`. -/
def UnmanagedRatelessIBLT.is_empty (u : UnmanagedRatelessIBLT T) : Bool :=
  isEmptyBlock u.coded_symbols

/-- Iterated `apply` of one symbol in one direction (`applyN S s dir n c` applies
`n` times). -/
def applyN (S : SymbolSpec T) (s : T) (dir : Direction) :
    Nat → CodedSymbol T → CodedSymbol T
  | 0, c => c
  | n + 1, c => applyN S s dir n (c.apply S s dir)

/-- How many times position `p` occurs in the mapping sequence of a symbol with hash
`h` (within `fuel` steps): the number of occurrences in the prefix truncated at
`p + 1`.  The lemma `mapPos_count_congr` shows any truncation bound above `p` gives
the same number. -/
def occCount (d : Nat → Nat → Nat) (h p fuel : Nat) : Nat :=
  List.count p (mapPos d h (p + 1) fuel)

/-- The history-free value of a stream cell: every item of one set traversal applied
`Add`-wise as many times as its mapping visits position `p`. -/
def idealCell (S : SymbolSpec T) (d : Nat → Nat → Nat) (fuel : Nat) (set : List T)
    (p : Nat) : CodedSymbol T :=
  set.foldl
    (fun c item => applyN S item Direction.Add (occCount d (S.hash_ item) p fuel) c)
    (CodedSymbol.new S)

/-- The termination measure claimed by the specification: the sum of the absolute
counts of a block. -/
def countSum (block : List (CodedSymbol T)) : Nat :=
  (block.map (fun c => c.count.natAbs)).sum

/-- A concrete symbol instance used for witnesses and counterexamples: `T = Nat`,
one-byte encoding of the value modulo 256, decode of the first byte, hash of `n` is
`n + 1` (the `Symbol` trait allows any override of `hash_`). -/
def S0 : SymbolSpec Nat :=
  ⟨1, fun n => [n % 256], fun bs => bs.headD 0, fun n => n + 1⟩

/-- A concrete diff oracle used for witnesses and counterexamples: every gap is 2048,
so each symbol contributes only to its first position within the first two blocks. -/
def d0 : Nat → Nat → Nat := fun _ _ => 2048

/-! ## Basic lemmas about the coded-symbol algebra -/

theorem xorBytes_self (l : List Nat) : xorBytes l l = List.replicate l.length 0 := by
  induction l with
  | nil => rfl
  | cons x xs ih =>
    show (x ^^^ x) :: xorBytes xs xs = 0 :: List.replicate xs.length 0
    rw [Nat.xor_self, ih]

theorem collapse_self_cell (S : SymbolSpec T) (c : CodedSymbol T)
    (hlen : c.sum.length = S.BYTE_ARRAY_LENGTH) :
    CodedSymbol.collapse c c = CodedSymbol.new S := by
  simp [CodedSymbol.collapse, CodedSymbol.new, xorBytes_self, hlen]

/-! ## Theorems for the claims about the coded-symbol algebra -/

/-- C1.  A coded symbol is peelable exactly when its count is plus or minus one and
its hash equals the hash of the decoded sum; in that case `peel_peek` and `peel`
return the decoded sum tagged `Local` for count plus one and `Remote` for count
minus one. -/
theorem c1_peelability_characterisation (S : SymbolSpec T) (c : CodedSymbol T) :
    (c.is_peelable S = true ↔
      ((c.count = 1 ∨ c.count = -1) ∧
        c.hash = S.hash_ (S.decode_from_bytes c.sum)))
    ∧ (c.is_peelable S = true →
        ((c.count = 1 →
            c.peel_peek S = PeelableResult.Local (S.decode_from_bytes c.sum) ∧
            (c.peel S).1 = PeelableResult.Local (S.decode_from_bytes c.sum))
          ∧ (c.count = -1 →
            c.peel_peek S = PeelableResult.Remote (S.decode_from_bytes c.sum) ∧
            (c.peel S).1 = PeelableResult.Remote (S.decode_from_bytes c.sum)))) := by
  constructor
  · simp [CodedSymbol.is_peelable]
  · intro hp
    constructor
    · intro h1
      simp [CodedSymbol.peel_peek, CodedSymbol.peel, hp, h1]
    · intro h1
      simp [CodedSymbol.peel_peek, CodedSymbol.peel, hp, h1]

/-- Witness for C1 at a concrete peelable coded symbol. -/
theorem c1_peelability_characterisation_witness :
    (CodedSymbol.is_peelable S0 ⟨[5], 6, 1⟩ = true) ∧
    CodedSymbol.peel_peek S0 ⟨[5], 6, 1⟩ = PeelableResult.Local 5 := by
  refine ⟨by decide, ?_⟩
  exact (((c1_peelability_characterisation S0 ⟨[5], 6, 1⟩).2 (by decide)).1 rfl).1

/-- C6.  Collapsing a coded-symbol stream with itself yields a stream in which every
entry is the zeroed `new()` coded symbol: count 0, hash 0 and an all-zero sum of the
static byte length. -/
theorem c6_collapse_self_stream (S : SymbolSpec T) (a : List (CodedSymbol T))
    (hlen : ∀ c ∈ a, c.sum.length = S.BYTE_ARRAY_LENGTH) :
    collapse a a = List.replicate a.length (CodedSymbol.new S) := by
  induction a with
  | nil => rfl
  | cons c t ih =>
    have hc : c.sum.length = S.BYTE_ARRAY_LENGTH := hlen c (by simp)
    have ht : ∀ x ∈ t, x.sum.length = S.BYTE_ARRAY_LENGTH := by
      intro x hx; exact hlen x (by simp [hx])
    show CodedSymbol.collapse c c :: collapse t t =
      CodedSymbol.new S :: List.replicate t.length (CodedSymbol.new S)
    rw [collapse_self_cell S c hc, ih ht]

/-- Witness for C6 at a concrete stream. -/
theorem c6_collapse_self_stream_witness :
    collapse [(⟨[5], 6, 1⟩ : CodedSymbol Nat), ⟨[7], 2, -3⟩]
        [⟨[5], 6, 1⟩, ⟨[7], 2, -3⟩] =
      List.replicate 2 (CodedSymbol.new S0) := by
  exact c6_collapse_self_stream S0 _ (by decide)

/-- C7.  When a coded symbol is not peelable, `peel` returns `NotPeelable` and leaves
the coded symbol unchanged (the operation is total, never a panic); when it is
peelable, `peel` returns the same non-`NotPeelable` result as `peel_peek` and resets
the coded symbol to the `new()` state. -/
theorem c7_peel_not_peelable_behaviour (S : SymbolSpec T) (c : CodedSymbol T) :
    (c.is_peelable S = false → c.peel S = (PeelableResult.NotPeelable, c))
    ∧ (c.is_peelable S = true →
        (c.peel S).2 = CodedSymbol.new S ∧
        (c.peel S).1 = c.peel_peek S ∧
        (c.peel S).1 ≠ PeelableResult.NotPeelable) := by
  constructor
  · intro h
    simp [CodedSymbol.peel, h]
  · intro h
    refine ⟨by simp [CodedSymbol.peel, h], by simp [CodedSymbol.peel, CodedSymbol.peel_peek, h], ?_⟩
    simp only [CodedSymbol.peel, h, if_true]
    split <;> simp

/-- Witness for C7 at a concrete non-peelable symbol and a concrete peelable one. -/
theorem c7_peel_not_peelable_behaviour_witness :
    (CodedSymbol.is_peelable S0 (CodedSymbol.new S0) = false) ∧
    CodedSymbol.peel S0 (CodedSymbol.new S0) =
      (PeelableResult.NotPeelable, CodedSymbol.new S0) := by
  exact ⟨by decide, (c7_peel_not_peelable_behaviour S0 (CodedSymbol.new S0)).1 (by decide)⟩

/-- C10.  An unmanaged holder with no coded symbols reports itself empty, in
particular a holder freshly created by `new()` before anything has been received. -/
theorem c10_empty_holder_is_empty (u : UnmanagedRatelessIBLT T)
    (h : u.coded_symbols = []) : u.is_empty = true := by
  cases u with
  | mk cs => cases h; rfl

/-- Witness for C10: the freshly created holder. -/
theorem c10_empty_holder_is_empty_witness :
    (UnmanagedRatelessIBLT.new Nat).coded_symbols = [] ∧
    (UnmanagedRatelessIBLT.new Nat).is_empty = true := by
  exact ⟨rfl, c10_empty_holder_is_empty (UnmanagedRatelessIBLT.new Nat) rfl⟩

/-! ## The mapping's missing strict-increase guard (claim C3)

The Rust `next` computes
`diff = ((last_idx as f64 + 1.5) * (2^32 / (r as f64 + 1.0).sqrt() - 1.0)).ceil() as u64`
and adds it to `last_idx` with no lower bound: nothing forces `diff` to 1 when the
expression evaluates to 0.  At the prng state `r = 2^64 - 1` every floating-point
step of that expression is exact: `r as f64` rounds to `2^64` (shown for a
round-to-nearest model of the top binade in `roundF64_u64_max`), adding `1.0` keeps `2^64`, the square
root of `2^64` is exactly `2^32` (`sqrt_two_pow_64`), the quotient is exactly `1.0`,
so the parenthesised factor and hence `diff` are exactly `0.0`, and `ceil(0.0) as u64`
is `0`.  The state is reachable: the multiplier is odd, hence invertible modulo
`2^64`, and `c3_seed` is the 64-bit hash whose first prng step lands on `2^64 - 1`
(`c3_seed_hits_max`).  A symbol with that hash therefore receives the same position
twice in a row. -/

/-- The 64-bit hash value whose first prng advance reaches `2^64 - 1`
(it is `(2^64 - 1) * PRNG_MULTIPLIER⁻¹ mod 2^64`). -/
def c3_seed : Nat := 8393710235039378019

theorem c3_seed_hits_max : (c3_seed * PRNG_MULTIPLIER) % 2 ^ 64 = 2 ^ 64 - 1 := by
  decide

/-- Round-to-nearest-even to 53 significant bits for values in `[2^63, 2^64)`, the
binade containing `2^64 - 1`: the value `n as f64` denotes there is the nearest
multiple of `2^11` (ties to even). -/
def roundF64Top (n : Nat) : Nat :=
  if 2 * (n % 2 ^ 11) > 2 ^ 11 ∨
      (2 * (n % 2 ^ 11) = 2 ^ 11 ∧ (n / 2 ^ 11) % 2 = 1) then
    (n / 2 ^ 11 + 1) * 2 ^ 11
  else
    (n / 2 ^ 11) * 2 ^ 11

theorem roundF64_u64_max : roundF64Top (2 ^ 64 - 1) = 2 ^ 64 := by decide

theorem sqrt_two_pow_64 : Nat.sqrt (2 ^ 64) = 2 ^ 32 := by
  have h : (2 : Nat) ^ 64 = (2 ^ 32) ^ 2 := by norm_num
  rw [h, Nat.sqrt_eq']

/-- C3 (code bug).  For every diff oracle that agrees with the exact value 0 of the
floating-point expression at the reachable prng state `2^64 - 1` — in particular the
IEEE-754 one the code uses — the mapping seeded from `c3_seed` yields position 0
twice in a row: the sequence is not strictly increasing, because the code omits the
`diff = max(diff, 1)` guard the specification requires. -/
theorem c3_mapping_not_strictly_increasing (d : Nat → Nat → Nat)
    (hd : d 0 (2 ^ 64 - 1) = 0) :
    ((RandomMapping.new c3_seed).next d).1 = 0 ∧
    (((RandomMapping.new c3_seed).next d).2.next d).1 = 0 := by
  refine ⟨rfl, ?_⟩
  show (RandomMapping.next d ((RandomMapping.new c3_seed).next d).2).1 = 0
  simp only [RandomMapping.next, RandomMapping.new, c3_seed_hits_max, hd]

/-- Witness for C3 with the diff oracle pinned to 0 at the failing state. -/
theorem c3_mapping_not_strictly_increasing_witness :
    ((fun _ _ => 0 : Nat → Nat → Nat) 0 (2 ^ 64 - 1) = 0) ∧
    ((((RandomMapping.new c3_seed).next (fun _ _ => 0)).2.next (fun _ _ => 0)).1 = 0 ∧
      ((RandomMapping.new c3_seed).next (fun _ _ => 0)).1 = 0) := by
  refine ⟨rfl, ?_, ?_⟩
  · exact (c3_mapping_not_strictly_increasing (fun _ _ => 0) rfl).2
  · exact (c3_mapping_not_strictly_increasing (fun _ _ => 0) rfl).1

/-! ## Structural lemmas about the index mapping -/

theorem mapPosGo_succ (d : Nat → Nat → Nat) (bound f : Nat) (m : RandomMapping) :
    mapPosGo d bound (f + 1) m =
      if m.last_idx < bound then
        m.last_idx ::
          mapPosGo d bound f
            ⟨(m.prng * PRNG_MULTIPLIER) % 2 ^ 64,
             m.last_idx + d m.last_idx ((m.prng * PRNG_MULTIPLIER) % 2 ^ 64)⟩
      else [] := rfl

/-- Every emitted position is at least the current `last_idx` (the oracle's value is
a `Nat`, so the sequence never goes backwards, whatever the oracle). -/
theorem mapPosGo_mem_ge (d : Nat → Nat → Nat) (bound : Nat) :
    ∀ (fuel : Nat) (m : RandomMapping) (x : Nat),
      x ∈ mapPosGo d bound fuel m → m.last_idx ≤ x := by
  intro fuel
  induction fuel with
  | zero => intro m x hx; simp [mapPosGo] at hx
  | succ f ih =>
    intro m x hx
    rw [mapPosGo_succ] at hx
    by_cases h : m.last_idx < bound
    · rw [if_pos h] at hx
      rcases List.mem_cons.mp hx with h1 | h2
      · omega
      · have := ih _ x h2
        simp at this
        omega
    · rw [if_neg h] at hx
      simp at hx

/-- The number of occurrences of a position `p` in the truncated mapping sequence
does not depend on the truncation bound, as long as the bound is above `p`. -/
theorem mapPosGo_count_congr (d : Nat → Nat → Nat) (p b1 b2 : Nat)
    (hp : p < b1) (hb : b1 ≤ b2) :
    ∀ (fuel : Nat) (m : RandomMapping),
      List.count p (mapPosGo d b1 fuel m) = List.count p (mapPosGo d b2 fuel m) := by
  intro fuel
  induction fuel with
  | zero => intro m; rfl
  | succ f ih =>
    intro m
    rw [mapPosGo_succ, mapPosGo_succ]
    by_cases h1 : m.last_idx < b1
    · rw [if_pos h1, if_pos (lt_of_lt_of_le h1 hb)]
      simp [List.count_cons, ih]
    · rw [if_neg h1]
      by_cases h2 : m.last_idx < b2
      · rw [if_pos h2]
        have hne : (m.last_idx == p) = false := by
          rw [beq_eq_false_iff_ne]; omega
        have hrest : p ∉ mapPosGo d b2 f
            ⟨(m.prng * PRNG_MULTIPLIER) % 2 ^ 64,
             m.last_idx + d m.last_idx ((m.prng * PRNG_MULTIPLIER) % 2 ^ 64)⟩ := by
          intro hmem
          have hge := mapPosGo_mem_ge d b2 f _ p hmem
          simp at hge
          omega
        rw [List.count_nil, List.count_cons, List.count_eq_zero.mpr hrest, hne]
        rfl
      · rw [if_neg h2]

theorem mapPos_count_congr (d : Nat → Nat → Nat) (h p b fuel : Nat) (hpb : p < b) :
    List.count p (mapPos d h b fuel) = occCount d h p fuel := by
  rw [mapPos, occCount, mapPos]
  by_cases hc : b ≤ p + 1
  · have : b = p + 1 := by omega
    rw [this]
  · exact (mapPosGo_count_congr d p (p + 1) b (by omega) (by omega) fuel _).symm

theorem mapPos_head (d : Nat → Nat → Nat) (h bound f : Nat) (hb : 0 < bound) :
    (mapPos d h bound (f + 1)).head? = some 0 := by
  rw [mapPos, RandomMapping.new, mapPosGo_succ]
  simp [hb]

theorem mapPosGo_length_le (d : Nat → Nat → Nat) (bound : Nat) :
    ∀ (fuel : Nat) (m : RandomMapping), (mapPosGo d bound fuel m).length ≤ fuel := by
  intro fuel
  induction fuel with
  | zero => intro m; simp [mapPosGo]
  | succ f ih =>
    intro m
    rw [mapPosGo_succ]
    by_cases h : m.last_idx < bound
    · rw [if_pos h]
      simpa using Nat.succ_le_succ (ih _)
    · rw [if_neg h]
      simp

/-! ## Lemmas about applying symbols at positions -/

theorem applyAt_length (S : SymbolSpec T) (cs : List (CodedSymbol T)) (s : T)
    (dir : Direction) (i : Nat) : (applyAt S cs s dir i).length = cs.length := by
  unfold applyAt
  cases h : cs[i]? with
  | none => rfl
  | some c => simp [List.length_set]

theorem applyAt_get_ne (S : SymbolSpec T) (cs : List (CodedSymbol T)) (s : T)
    (dir : Direction) (i p : Nat) (hne : i ≠ p) :
    (applyAt S cs s dir i)[p]? = cs[p]? := by
  unfold applyAt
  cases h : cs[i]? with
  | none => rfl
  | some c => exact List.getElem?_set_ne hne

theorem applyAt_get_eq (S : SymbolSpec T) (cs : List (CodedSymbol T)) (s : T)
    (dir : Direction) (p : Nat) :
    (applyAt S cs s dir p)[p]? = cs[p]?.map (fun c => c.apply S s dir) := by
  unfold applyAt
  cases h : cs[p]? with
  | none => simp [h]
  | some c =>
    have hlt : p < cs.length := by
      by_contra hle
      rw [List.getElem?_eq_none (by omega)] at h
      exact Option.noConfusion h
    show (cs.set p (CodedSymbol.apply S c s dir))[p]? =
      Option.map (fun c => CodedSymbol.apply S c s dir) (some c)
    rw [List.getElem?_set_eq_of_lt _ hlt]
    rfl

theorem applyAtPositions_length (S : SymbolSpec T) (s : T) (dir : Direction) :
    ∀ (ps : List Nat) (cs : List (CodedSymbol T)),
      (applyAtPositions S cs ps s dir).length = cs.length := by
  intro ps
  induction ps with
  | nil => intro cs; rfl
  | cons q qs ih =>
    intro cs
    show (applyAtPositions S (applyAt S cs s dir q) qs s dir).length = cs.length
    rw [ih, applyAt_length]

theorem applyAtPositions_get (S : SymbolSpec T) (s : T) (dir : Direction) :
    ∀ (ps : List Nat) (cs : List (CodedSymbol T)) (p : Nat),
      (applyAtPositions S cs ps s dir)[p]? =
        cs[p]?.map (fun c => applyN S s dir (List.count p ps) c) := by
  intro ps
  induction ps with
  | nil =>
    intro cs p
    show cs[p]? = cs[p]?.map (fun c => c)
    cases cs[p]? <;> rfl
  | cons q qs ih =>
    intro cs p
    show (applyAtPositions S (applyAt S cs s dir q) qs s dir)[p]? = _
    rw [ih]
    by_cases hqp : q = p
    · subst hqp
      rw [applyAt_get_eq]
      cases h : cs[q]? with
      | none => simp
      | some c =>
        have hcq : List.count q (q :: qs) = List.count q qs + 1 := by
          simp [List.count_cons]
        rw [hcq]
        rfl
    · rw [applyAt_get_ne S cs s dir q p hqp]
      have hcq : List.count p (q :: qs) = List.count p qs := by
        simp [List.count_cons, hqp]
      rw [hcq]

theorem foldl_applyAtPositions_length (S : SymbolSpec T) (dir : Direction)
    (ps : T → List Nat) :
    ∀ (set : List T) (acc : List (CodedSymbol T)),
      (set.foldl (fun a item => applyAtPositions S a (ps item) item dir) acc).length =
        acc.length := by
  intro set
  induction set with
  | nil => intro acc; rfl
  | cons a l ih =>
    intro acc
    show (l.foldl _ (applyAtPositions S acc (ps a) a dir)).length = acc.length
    rw [ih, applyAtPositions_length]

theorem foldl_applyAtPositions_get (S : SymbolSpec T) (dir : Direction)
    (ps : T → List Nat) :
    ∀ (set : List T) (acc : List (CodedSymbol T)) (p : Nat),
      (set.foldl (fun a item => applyAtPositions S a (ps item) item dir) acc)[p]? =
        acc[p]?.map
          (fun c =>
            set.foldl
              (fun c item => applyN S item dir (List.count p (ps item)) c) c) := by
  intro set
  induction set with
  | nil =>
    intro acc p
    show acc[p]? = acc[p]?.map (fun c => c)
    cases acc[p]? <;> rfl
  | cons a l ih =>
    intro acc p
    show (l.foldl _ (applyAtPositions S acc (ps a) a dir))[p]? = _
    rw [ih, applyAtPositions_get]
    cases h : acc[p]? with
    | none => rfl
    | some c => rfl

/-! ## Lemmas about the lazy extension of the coded-symbol stream -/

theorem count_filter_ge (cur p : Nat) (hp : cur ≤ p) (l : List Nat) :
    List.count p (l.filter (fun x => decide (cur ≤ x))) = List.count p l := by
  induction l with
  | nil => rfl
  | cons a t ih =>
    by_cases ha : cur ≤ a
    · rw [List.filter_cons_of_pos (by simpa using ha)]
      rw [List.count_cons, List.count_cons, ih]
    · rw [List.filter_cons_of_neg (by simpa using ha)]
      have hne : (a == p) = false := by rw [beq_eq_false_iff_ne]; omega
      rw [List.count_cons, hne, ih]
      simp

theorem foldl_applyN_count_zero (S : SymbolSpec T) (dir : Direction) (cnt : T → Nat)
    (h : ∀ item, cnt item = 0) :
    ∀ (set : List T) (c : CodedSymbol T),
      set.foldl (fun c item => applyN S item dir (cnt item) c) c = c := by
  intro set
  induction set with
  | nil => intro c; rfl
  | cons a l ih =>
    intro c
    show l.foldl _ (applyN S a dir (cnt a) c) = c
    rw [h a]
    exact ih _

theorem extendSymbols_of_lt (S : SymbolSpec T) (d : Nat → Nat → Nat)
    (fuel bS : Nat) (set : List T) (cs : List (CodedSymbol T)) (index : Nat)
    (h : index < cs.length) : extendSymbols S d fuel bS set cs index = cs := by
  unfold extendSymbols
  rw [if_pos h]

theorem extendSymbols_of_ge (S : SymbolSpec T) (d : Nat → Nat → Nat)
    (fuel bS : Nat) (set : List T) (cs : List (CodedSymbol T)) (index : Nat)
    (h : ¬ index < cs.length) :
    extendSymbols S d fuel bS set cs index =
      set.foldl
        (fun acc item =>
          applyAtPositions S acc
            ((mapPos d (S.hash_ item) (max (index + 1) (cs.length + bS)) fuel).filter
              (fun x => decide (cs.length ≤ x)))
            item Direction.Add)
        (cs ++ List.replicate (max (index + 1) (cs.length + bS) - cs.length)
          (CodedSymbol.new S)) := by
  unfold extendSymbols
  rw [if_neg h]

theorem extendSymbols_length (S : SymbolSpec T) (d : Nat → Nat → Nat)
    (fuel bS : Nat) (set : List T) (cs : List (CodedSymbol T)) (index : Nat) :
    (extendSymbols S d fuel bS set cs index).length =
      if index < cs.length then cs.length else max (index + 1) (cs.length + bS) := by
  by_cases h : index < cs.length
  · rw [extendSymbols_of_lt S d fuel bS set cs index h, if_pos h]
  · rw [extendSymbols_of_ge S d fuel bS set cs index h, if_neg h,
      foldl_applyAtPositions_length S Direction.Add
        (fun item =>
          (mapPos d (S.hash_ item) (max (index + 1) (cs.length + bS)) fuel).filter
            (fun x => decide (cs.length ≤ x)))]
    rw [List.length_append, List.length_replicate]
    omega

theorem extendSymbols_length_gt (S : SymbolSpec T) (d : Nat → Nat → Nat)
    (fuel bS : Nat) (set : List T) (cs : List (CodedSymbol T)) (index : Nat) :
    index < (extendSymbols S d fuel bS set cs index).length := by
  rw [extendSymbols_length]
  by_cases h : index < cs.length
  · rw [if_pos h]; exact h
  · rw [if_neg h]; omega

/-- Already materialised cells are untouched by `extend_coded_symbols`: the filter
`x >= current_len` excludes every old position. -/
theorem extendSymbols_get_lt (S : SymbolSpec T) (d : Nat → Nat → Nat)
    (fuel bS : Nat) (set : List T) (cs : List (CodedSymbol T)) (index p : Nat)
    (hp : p < cs.length) :
    (extendSymbols S d fuel bS set cs index)[p]? = cs[p]? := by
  by_cases h : index < cs.length
  · rw [extendSymbols_of_lt S d fuel bS set cs index h]
  · rw [extendSymbols_of_ge S d fuel bS set cs index h,
      foldl_applyAtPositions_get S Direction.Add
        (fun item =>
          (mapPos d (S.hash_ item) (max (index + 1) (cs.length + bS)) fuel).filter
            (fun x => decide (cs.length ≤ x)))]
    have hz : ∀ item : T,
        List.count p
          ((mapPos d (S.hash_ item) (max (index + 1) (cs.length + bS)) fuel).filter
            (fun x => decide (cs.length ≤ x))) = 0 := by
      intro item
      apply List.count_eq_zero.mpr
      intro hmem
      rcases List.mem_filter.mp hmem with ⟨_, hd2⟩
      have : cs.length ≤ p := of_decide_eq_true hd2
      omega
    rw [List.getElem?_append, if_pos hp]
    cases hc : cs[p]? with
    | none => rfl
    | some c =>
      show some (List.foldl _ c set) = some c
      rw [foldl_applyN_count_zero S Direction.Add _ hz set c]

/-- Freshly materialised cells carry the history-free `idealCell` value. -/
theorem extendSymbols_get_new (S : SymbolSpec T) (d : Nat → Nat → Nat)
    (fuel bS : Nat) (set : List T) (cs : List (CodedSymbol T)) (index p : Nat)
    (hge : ¬ index < cs.length) (hp1 : cs.length ≤ p)
    (hp2 : p < max (index + 1) (cs.length + bS)) :
    (extendSymbols S d fuel bS set cs index)[p]? =
      some (idealCell S d fuel set p) := by
  rw [extendSymbols_of_ge S d fuel bS set cs index hge,
    foldl_applyAtPositions_get S Direction.Add
      (fun item =>
        (mapPos d (S.hash_ item) (max (index + 1) (cs.length + bS)) fuel).filter
          (fun x => decide (cs.length ≤ x)))]
  have hbase :
      (cs ++ List.replicate (max (index + 1) (cs.length + bS) - cs.length)
        (CodedSymbol.new S))[p]? = some (CodedSymbol.new S) := by
    rw [List.getElem?_append, if_neg (by omega), List.getElem?_replicate]
    rw [if_pos (by omega)]
  rw [hbase]
  have hcnt : ∀ item : T,
      List.count p
        ((mapPos d (S.hash_ item) (max (index + 1) (cs.length + bS)) fuel).filter
          (fun x => decide (cs.length ≤ x))) = occCount d (S.hash_ item) p fuel := by
    intro item
    rw [count_filter_ge cs.length p hp1,
      mapPos_count_congr d (S.hash_ item) p (max (index + 1) (cs.length + bS)) fuel hp2]
  show some (List.foldl _ (CodedSymbol.new S) set) = some (idealCell S d fuel set p)
  refine congrArg some ?_
  unfold idealCell
  apply List.foldl_ext
  intro a b hb
  rw [hcnt b]

/-- A coded-symbol vector every cell of which carries its history-free value. -/
def IsMaterialized (S : SymbolSpec T) (d : Nat → Nat → Nat) (fuel : Nat)
    (set : List T) (cs : List (CodedSymbol T)) : Prop :=
  ∀ p, p < cs.length → cs[p]? = some (idealCell S d fuel set p)

theorem isMaterialized_nil (S : SymbolSpec T) (d : Nat → Nat → Nat) (fuel : Nat)
    (set : List T) : IsMaterialized S d fuel set ([] : List (CodedSymbol T)) := by
  intro p hp
  simp at hp

theorem isMaterialized_extend (S : SymbolSpec T) (d : Nat → Nat → Nat)
    (fuel bS : Nat) (set : List T) (cs : List (CodedSymbol T)) (index : Nat)
    (h : IsMaterialized S d fuel set cs) :
    IsMaterialized S d fuel set (extendSymbols S d fuel bS set cs index) := by
  intro p hp
  by_cases hidx : index < cs.length
  · rw [extendSymbols_of_lt S d fuel bS set cs index hidx] at hp ⊢
    exact h p hp
  · rw [extendSymbols_length, if_neg hidx] at hp
    by_cases hplen : p < cs.length
    · rw [extendSymbols_get_lt S d fuel bS set cs index p hplen]
      exact h p hplen
    · exact extendSymbols_get_new S d fuel bS set cs index p hidx (by omega) hp

theorem isMaterialized_fold (S : SymbolSpec T) (d : Nat → Nat → Nat)
    (fuel bS : Nat) (set : List T) (hist : List Nat) :
    ∀ cs, IsMaterialized S d fuel set cs →
      IsMaterialized S d fuel set
        (hist.foldl (fun c j => extendSymbols S d fuel bS set c j) cs) := by
  induction hist with
  | nil => intro cs h; exact h
  | cons a t ih =>
    intro cs h
    exact ih _ (isMaterialized_extend S d fuel bS set cs a h)

/-! ## History independence of materialised cells (claims C4, C8, C9) -/

theorem extend_hist_get (S : SymbolSpec T) (d : Nat → Nat → Nat) (fuel bS : Nat)
    (set : List T) (hist : List Nat) (i : Nat) :
    (extendSymbols S d fuel bS set
        (hist.foldl (fun c j => extendSymbols S d fuel bS set c j)
          (extendSymbols S d fuel bS set [] 0)) i)[i]? =
      some (idealCell S d fuel set i) := by
  have mat := isMaterialized_fold S d fuel bS set hist _
    (isMaterialized_extend S d fuel bS set [] 0 (isMaterialized_nil S d fuel set))
  have mat2 := isMaterialized_extend S d fuel bS set _ i mat
  exact mat2 i (extendSymbols_length_gt S d fuel bS set _ i)

theorem extend_direct_get (S : SymbolSpec T) (d : Nat → Nat → Nat) (fuel bS : Nat)
    (set : List T) (i K : Nat) :
    (extendSymbols S d fuel bS set (extendSymbols S d fuel bS set [] 0) (i + K))[i]? =
      some (idealCell S d fuel set i) := by
  have mat := isMaterialized_extend S d fuel bS set _ (i + K)
    (isMaterialized_extend S d fuel bS set [] 0 (isMaterialized_nil S d fuel set))
  have hlen := extendSymbols_length_gt S d fuel bS set
    (extendSymbols S d fuel bS set [] 0) (i + K)
  exact mat i (by omega)

theorem fold_extend_method (S : SymbolSpec T) (d : Nat → Nat → Nat) (fuel : Nat)
    (hist : List Nat) :
    ∀ (cs : List (CodedSymbol T)) (set : List T),
      hist.foldl (fun r j => RatelessIBLT.extend_coded_symbols S d fuel r j)
          ⟨cs, set⟩ =
        (⟨hist.foldl (fun c j => extendSymbols S d fuel BLOCK_SIZE set c j) cs,
          set⟩ : RatelessIBLT T) := by
  induction hist with
  | nil => intro cs set; rfl
  | cons a t ih =>
    intro cs set
    exact ih (extendSymbols S d fuel BLOCK_SIZE set cs a) set

/-- C4.  A materialised cell is independent of the extension history and of the block
constant: any sequence of `extend` calls followed by `extend i`, with any block size,
produces the same `cs[i]` as a single direct `extend (i + K)` with any other block
size; and likewise for the managed encoder with its fixed `BLOCK_SIZE`. -/
theorem c4_cell_history_independence :
    (∀ (S : SymbolSpec T) (d : Nat → Nat → Nat) (fuel : Nat) (set : List T)
        (i K bs1 bs2 : Nat) (hist : List Nat),
        (extendSymbols S d fuel bs1 set
            (hist.foldl (fun c j => extendSymbols S d fuel bs1 set c j)
              (extendSymbols S d fuel bs1 set [] 0)) i)[i]? =
          (extendSymbols S d fuel bs2 set
            (extendSymbols S d fuel bs2 set [] 0) (i + K))[i]?)
    ∧ (∀ (S : SymbolSpec T) (d : Nat → Nat → Nat) (fuel : Nat) (set : List T)
        (i K : Nat) (hist : List Nat),
        (RatelessIBLT.extend_coded_symbols S d fuel
            (hist.foldl (fun r j => RatelessIBLT.extend_coded_symbols S d fuel r j)
              (RatelessIBLT.new S d fuel set)) i).coded_symbols[i]? =
          (RatelessIBLT.extend_coded_symbols S d fuel
            (RatelessIBLT.new S d fuel set) (i + K)).coded_symbols[i]?) := by
  constructor
  · intro S d fuel set i K bs1 bs2 hist
    rw [extend_hist_get S d fuel bs1 set hist i,
      extend_direct_get S d fuel bs2 set i K]
  · intro S d fuel set i K hist
    have hb : RatelessIBLT.new S d fuel set =
        (⟨extendSymbols S d fuel BLOCK_SIZE set [] 0, set⟩ : RatelessIBLT T) := rfl
    rw [hb, fold_extend_method S d fuel hist _ set]
    show (extendSymbols S d fuel BLOCK_SIZE set
        (hist.foldl (fun c j => extendSymbols S d fuel BLOCK_SIZE set c j)
          (extendSymbols S d fuel BLOCK_SIZE set [] 0)) i)[i]? =
      (extendSymbols S d fuel BLOCK_SIZE set
        (extendSymbols S d fuel BLOCK_SIZE set [] 0) (i + K))[i]?
    rw [extend_hist_get S d fuel BLOCK_SIZE set hist i,
      extend_direct_get S d fuel BLOCK_SIZE set i K]

/-- C8 (amended).  A materialised cell of a managed encoder is unchanged by
`extend_coded_symbols`, `get_coded_symbol`, `combine`, `collapse` and `is_empty`;
the peeling operations are excluded because peeling rewrites the stream (see the
counterexample). -/
theorem c8_materialised_cells_frame (S : SymbolSpec T) (d : Nat → Nat → Nat)
    (fuel : Nat) (r other : RatelessIBLT T) (otherU : UnmanagedRatelessIBLT T)
    (idx p : Nat) (hp : p < r.coded_symbols.length) :
    ((RatelessIBLT.extend_coded_symbols S d fuel r idx).coded_symbols[p]? =
        r.coded_symbols[p]?)
    ∧ ((RatelessIBLT.get_coded_symbol S d fuel r idx).2.coded_symbols[p]? =
        r.coded_symbols[p]?)
    ∧ ((RatelessIBLT.combine S d fuel r other).2.coded_symbols[p]? =
        r.coded_symbols[p]?)
    ∧ ((RatelessIBLT.collapse S d fuel r otherU).2.coded_symbols[p]? =
        r.coded_symbols[p]?)
    ∧ ((RatelessIBLT.is_empty S d fuel r).2.coded_symbols[p]? =
        r.coded_symbols[p]?) := by
  refine ⟨?_, ?_, ?_, ?_, ?_⟩ <;>
    exact extendSymbols_get_lt S d fuel BLOCK_SIZE r.set_iterator r.coded_symbols _ p hp

/-- Witness for C8 (amended) on a concrete encoder. -/
theorem c8_materialised_cells_frame_witness :
    (0 < (RatelessIBLT.new S0 d0 1 [5]).coded_symbols.length) ∧
    (RatelessIBLT.extend_coded_symbols S0 d0 1 (RatelessIBLT.new S0 d0 1 [5])
        5).coded_symbols[0]? =
      (RatelessIBLT.new S0 d0 1 [5]).coded_symbols[0]? := by
  refine ⟨by decide, ?_⟩
  exact (c8_materialised_cells_frame S0 d0 1 (RatelessIBLT.new S0 d0 1 [5])
    (RatelessIBLT.new S0 d0 1 [5]) ⟨[]⟩ 5 0 (by decide)).1

/-- Counterexample for C8 as stated: `peel_one_symbol` on a managed encoder rewrites
the already materialised cell 0 (the claim lists `peel_one` among the operations that
leave materialised cells unchanged). -/
theorem c8_counterexample_peel_mutates :
    (RatelessIBLT.peel_one_symbol S0 d0 1
        (RatelessIBLT.new S0 d0 1 [5])).2.coded_symbols[0]? ≠
      (RatelessIBLT.new S0 d0 1 [5]).coded_symbols[0]? := by
  decide

/-! ## The first mapping position and cell 0 of a fresh encoder (claim C9) -/

theorem applyN_add_count (S : SymbolSpec T) (s : T) :
    ∀ (n : Nat) (c : CodedSymbol T),
      (applyN S s Direction.Add n c).count = c.count + (n : Int) := by
  intro n
  induction n with
  | zero => intro c; simp [applyN]
  | succ k ih =>
    intro c
    show (applyN S s Direction.Add k (c.apply S s Direction.Add)).count =
      c.count + ((k + 1 : Nat) : Int)
    rw [ih]
    show c.count + 1 + (k : Int) = c.count + ((k + 1 : Nat) : Int)
    push_cast
    ring

theorem foldl_applyN_add_count (S : SymbolSpec T) (d : Nat → Nat → Nat)
    (fuel p : Nat) :
    ∀ (set : List T) (c : CodedSymbol T),
      (∀ item ∈ set, occCount d (S.hash_ item) p fuel = 1) →
      (set.foldl
          (fun c item =>
            applyN S item Direction.Add (occCount d (S.hash_ item) p fuel) c)
          c).count = c.count + (set.length : Int) := by
  intro set
  induction set with
  | nil => intro c h; simp
  | cons a l ih =>
    intro c h
    show (l.foldl _
        (applyN S a Direction.Add (occCount d (S.hash_ a) p fuel) c)).count =
      c.count + ((a :: l).length : Int)
    rw [ih _ (fun x hx => h x (List.mem_cons_of_mem a hx)),
      applyN_add_count, h a (List.mem_cons_self a l)]
    simp
    ring

/-- C9.  The first position every mapping yields is 0 (whatever the diff oracle and
the seed); hence position 0 occurs at least once in every symbol's truncated
sequence, and in a freshly constructed managed encoder cell 0 has received an
`apply(s, Add)` from every element of the set: when no symbol revisits position 0
within the block, `cs[0].count` equals the number of elements one traversal of the
set yields. -/
theorem c9_first_position_and_cell0_count :
    (∀ (d : Nat → Nat → Nat) (h bound fuel : Nat), 0 < bound →
        (mapPos d h bound (fuel + 1)).head? = some 0)
    ∧ (∀ (d : Nat → Nat → Nat) (h fuel : Nat), 1 ≤ occCount d h 0 (fuel + 1))
    ∧ (∀ (S : SymbolSpec T) (d : Nat → Nat → Nat) (fuel : Nat) (set : List T),
        (∀ item ∈ set, occCount d (S.hash_ item) 0 fuel = 1) →
        ∃ c, (RatelessIBLT.new S d fuel set).coded_symbols[0]? = some c ∧
          c.count = (set.length : Int)) := by
  refine ⟨?_, ?_, ?_⟩
  · intro d h bound fuel hb
    exact mapPos_head d h bound fuel hb
  · intro d h fuel
    show 1 ≤ List.count 0 (mapPosGo d (0 + 1) (fuel + 1) (RandomMapping.new h))
    rw [RandomMapping.new, mapPosGo_succ,
      if_pos (show (⟨h, 0⟩ : RandomMapping).last_idx < 0 + 1 from Nat.lt_succ_self 0)]
    rw [List.count_cons]
    simp
  · intro S d fuel set hocc
    have mat : IsMaterialized S d fuel set
        (RatelessIBLT.new S d fuel set).coded_symbols :=
      isMaterialized_extend S d fuel BLOCK_SIZE set [] 0
        (isMaterialized_nil S d fuel set)
    have hlen : 0 < (RatelessIBLT.new S d fuel set).coded_symbols.length :=
      extendSymbols_length_gt S d fuel BLOCK_SIZE set [] 0
    refine ⟨idealCell S d fuel set 0, mat 0 hlen, ?_⟩
    unfold idealCell
    rw [foldl_applyN_add_count S d fuel 0 set (CodedSymbol.new S) hocc]
    show (0 : Int) + (set.length : Int) = (set.length : Int)
    ring

/-- Witness for C9 on a concrete mapping and encoder. -/
theorem c9_first_position_and_cell0_count_witness :
    ((0 : Nat) < 1) ∧
    ((mapPos d0 6 1 (0 + 1)).head? = some 0) ∧
    (∀ item ∈ ([5] : List Nat), occCount d0 (S0.hash_ item) 0 1 = 1) ∧
    (∃ c, (RatelessIBLT.new S0 d0 1 [5]).coded_symbols[0]? = some c ∧
      c.count = (([5] : List Nat).length : Int)) := by
  refine ⟨by decide, ?_, by decide, ?_⟩
  · exact (@c9_first_position_and_cell0_count Nat).1 d0 6 1 0 (by decide)
  · exact (@c9_first_position_and_cell0_count Nat).2.2 S0 d0 1 [5] (by decide)

/-! ## The termination measure of peeling (claim C5) -/

theorem countSum_set (cs : List (CodedSymbol T)) :
    ∀ (p : Nat) (c x : CodedSymbol T), cs[p]? = some c →
      countSum (cs.set p x) + c.count.natAbs = countSum cs + x.count.natAbs := by
  induction cs with
  | nil => intro p c x h; simp at h
  | cons a t ih =>
    intro p c x h
    cases p with
    | zero =>
      have hac : a = c := by simpa using h
      subst hac
      show countSum (x :: t) + a.count.natAbs = countSum (a :: t) + x.count.natAbs
      simp [countSum]
      omega
    | succ q =>
      have h' : t[q]? = some c := by simpa using h
      show countSum (a :: t.set q x) + c.count.natAbs =
        countSum (a :: t) + x.count.natAbs
      have := ih q c x h'
      simp [countSum] at this ⊢
      omega

theorem countSum_applyAt_remove (S : SymbolSpec T) (s : T)
    (cs : List (CodedSymbol T)) (p : Nat) (c : CodedSymbol T)
    (h : cs[p]? = some c) (hc : 1 ≤ c.count) :
    countSum (applyAt S cs s Direction.Remove p) + 1 = countSum cs := by
  unfold applyAt
  rw [h]
  show countSum (cs.set p (CodedSymbol.apply S c s Direction.Remove)) + 1 = countSum cs
  have hs := countSum_set cs p c (c.apply S s Direction.Remove) h
  have hcount : (CodedSymbol.apply S c s Direction.Remove).count = c.count - 1 := rfl
  rw [hcount] at hs
  omega

theorem countSum_applyAt_add (S : SymbolSpec T) (s : T)
    (cs : List (CodedSymbol T)) (p : Nat) (c : CodedSymbol T)
    (h : cs[p]? = some c) (hc : c.count ≤ -1) :
    countSum (applyAt S cs s Direction.Add p) + 1 = countSum cs := by
  unfold applyAt
  rw [h]
  show countSum (cs.set p (CodedSymbol.apply S c s Direction.Add)) + 1 = countSum cs
  have hs := countSum_set cs p c (c.apply S s Direction.Add) h
  have hcount : (CodedSymbol.apply S c s Direction.Add).count = c.count + 1 := rfl
  rw [hcount] at hs
  omega

theorem countSum_applyAtPositions_remove (S : SymbolSpec T) (s : T) :
    ∀ (P : List Nat) (cs : List (CodedSymbol T)), P.Nodup →
      (∀ p ∈ P, ∃ c, cs[p]? = some c ∧ 1 ≤ c.count) →
      countSum (applyAtPositions S cs P s Direction.Remove) + P.length = countSum cs := by
  intro P
  induction P with
  | nil => intro cs _ _; simp [applyAtPositions]
  | cons q qs ih =>
    intro cs hnd hc
    obtain ⟨c, hq, hc1⟩ := hc q (List.mem_cons_self q qs)
    have hnd' := List.nodup_cons.mp hnd
    have h1 := countSum_applyAt_remove S s cs q c hq hc1
    have hc' : ∀ p ∈ qs,
        ∃ c, (applyAt S cs s Direction.Remove q)[p]? = some c ∧ 1 ≤ c.count := by
      intro p hp
      obtain ⟨c', hp', hcp⟩ := hc p (List.mem_cons_of_mem q hp)
      refine ⟨c', ?_, hcp⟩
      rw [applyAt_get_ne S cs s Direction.Remove q p
        (fun hqp => hnd'.1 (hqp ▸ hp))]
      exact hp'
    have h2 := ih (applyAt S cs s Direction.Remove q) hnd'.2 hc'
    show countSum (applyAtPositions S (applyAt S cs s Direction.Remove q) qs s
      Direction.Remove) + (q :: qs).length = countSum cs
    simp at h2 ⊢
    omega

theorem countSum_applyAtPositions_add (S : SymbolSpec T) (s : T) :
    ∀ (P : List Nat) (cs : List (CodedSymbol T)), P.Nodup →
      (∀ p ∈ P, ∃ c, cs[p]? = some c ∧ c.count ≤ -1) →
      countSum (applyAtPositions S cs P s Direction.Add) + P.length = countSum cs := by
  intro P
  induction P with
  | nil => intro cs _ _; simp [applyAtPositions]
  | cons q qs ih =>
    intro cs hnd hc
    obtain ⟨c, hq, hc1⟩ := hc q (List.mem_cons_self q qs)
    have hnd' := List.nodup_cons.mp hnd
    have h1 := countSum_applyAt_add S s cs q c hq hc1
    have hc' : ∀ p ∈ qs,
        ∃ c, (applyAt S cs s Direction.Add q)[p]? = some c ∧ c.count ≤ -1 := by
      intro p hp
      obtain ⟨c', hp', hcp⟩ := hc p (List.mem_cons_of_mem q hp)
      refine ⟨c', ?_, hcp⟩
      rw [applyAt_get_ne S cs s Direction.Add q p (fun hqp => hnd'.1 (hqp ▸ hp))]
      exact hp'
    have h2 := ih (applyAt S cs s Direction.Add q) hnd'.2 hc'
    show countSum (applyAtPositions S (applyAt S cs s Direction.Add q) qs s
      Direction.Add) + (q :: qs).length = countSum cs
    simp at h2 ⊢
    omega

theorem mapPos_length_pos (d : Nat → Nat → Nat) (h len f : Nat) (hlen : 0 < len) :
    0 < (mapPos d h len (f + 1)).length := by
  have hhead := mapPos_head d h len f hlen
  cases hP : mapPos d h len (f + 1) with
  | nil => rw [hP] at hhead; exact Option.noConfusion hhead
  | cons a l => simp [hP]

/-- C5 (amended).  A successful peel strictly decreases the measure `Σ |count_i|`
provided every mapped position of the peeled symbol holds a coded symbol whose count
has the sign of the result (at least +1 for a `Local` peel, at most −1 for a
`Remote` one) and the mapped positions within the block are distinct.  Without these
side conditions the measure can increase (see the counterexample), so the claim's
unconditional statement fails and `peel_all` need not terminate on adversarial
blocks. -/
theorem c5_peel_decreases_countSum (S : SymbolSpec T) (d : Nat → Nat → Nat)
    (fuel : Nat) (block block' : List (CodedSymbol T)) (t : T) (hfuel : 0 < fuel) :
    (peel_one_symbol S d fuel block = (PeelableResult.Local t, block') →
      (mapPos d (S.hash_ t) block.length fuel).Nodup →
      (∀ p ∈ mapPos d (S.hash_ t) block.length fuel,
        ∃ c, block[p]? = some c ∧ 1 ≤ c.count) →
      countSum block' < countSum block)
    ∧ (peel_one_symbol S d fuel block = (PeelableResult.Remote t, block') →
      (mapPos d (S.hash_ t) block.length fuel).Nodup →
      (∀ p ∈ mapPos d (S.hash_ t) block.length fuel,
        ∃ c, block[p]? = some c ∧ c.count ≤ -1) →
      countSum block' < countSum block) := by
  obtain ⟨f, rfl⟩ : ∃ f, fuel = f + 1 := ⟨fuel - 1, by omega⟩
  constructor
  · intro hpeel hnodup hcounts
    have hblock : block ≠ [] := by
      rintro rfl
      simp [peel_one_symbol, find_peelable] at hpeel
    have hb' : block' =
        applyAtPositions S block (mapPos d (S.hash_ t) block.length (f + 1)) t
          Direction.Remove := by
      unfold peel_one_symbol at hpeel
      cases hf : find_peelable S block with
      | Local s =>
        rw [hf] at hpeel
        have h1 : s = t := by
          have := congrArg Prod.fst hpeel
          simpa using this
        have h2 := congrArg Prod.snd hpeel
        subst h1
        simpa [remove_symbol_from_block] using h2.symm
      | Remote s => rw [hf] at hpeel; simp at hpeel
      | NotPeelable => rw [hf] at hpeel; simp at hpeel
    subst hb'
    have hps := countSum_applyAtPositions_remove S t
      (mapPos d (S.hash_ t) block.length (f + 1)) block hnodup hcounts
    have hPlen := mapPos_length_pos d (S.hash_ t) block.length f
      (List.length_pos.mpr hblock)
    omega
  · intro hpeel hnodup hcounts
    have hblock : block ≠ [] := by
      rintro rfl
      simp [peel_one_symbol, find_peelable] at hpeel
    have hb' : block' =
        applyAtPositions S block (mapPos d (S.hash_ t) block.length (f + 1)) t
          Direction.Add := by
      unfold peel_one_symbol at hpeel
      cases hf : find_peelable S block with
      | Remote s =>
        rw [hf] at hpeel
        have h1 : s = t := by
          have := congrArg Prod.fst hpeel
          simpa using this
        have h2 := congrArg Prod.snd hpeel
        subst h1
        simpa [remove_symbol_from_block] using h2.symm
      | Local s => rw [hf] at hpeel; simp at hpeel
      | NotPeelable => rw [hf] at hpeel; simp at hpeel
    subst hb'
    have hps := countSum_applyAtPositions_add S t
      (mapPos d (S.hash_ t) block.length (f + 1)) block hnodup hcounts
    have hPlen := mapPos_length_pos d (S.hash_ t) block.length f
      (List.length_pos.mpr hblock)
    omega

/-- Witness for C5 (amended) on a concrete genuine singleton. -/
theorem c5_peel_decreases_countSum_witness :
    (peel_one_symbol S0 d0 1 [(⟨[5], 6, 1⟩ : CodedSymbol Nat)] =
      (PeelableResult.Local 5, [(⟨[0], 0, 0⟩ : CodedSymbol Nat)])) ∧
    countSum [(⟨[0], 0, 0⟩ : CodedSymbol Nat)] <
      countSum [(⟨[5], 6, 1⟩ : CodedSymbol Nat)] := by
  refine ⟨by decide, ?_⟩
  refine (c5_peel_decreases_countSum S0 d0 1 [⟨[5], 6, 1⟩] [⟨[0], 0, 0⟩] 5
    Nat.one_pos).1 (by decide) (by decide) ?_
  intro p hp
  have hp0 : p = 0 := by
    have : p ∈ [0] := by
      simpa [mapPos, mapPosGo, RandomMapping.next, RandomMapping.new] using hp
    simpa using this
  subst hp0
  exact ⟨⟨[5], 6, 1⟩, rfl, by decide⟩

/-- Counterexample for C5 as stated: an adversarial block (receivable over the wire
by an unmanaged holder) on which a successful peel strictly increases `Σ |count_i|`.
The peeled cell sits at position 1, but the decoded symbol's mapping only visits
position 0, whose empty cell then picks up a spurious −1. -/
theorem c5_counterexample_measure_increases :
    ((peel_one_symbol S0 d0 1 [CodedSymbol.new S0, ⟨[5], 6, 1⟩]).1 ≠
      PeelableResult.NotPeelable) ∧
    countSum [CodedSymbol.new S0, (⟨[5], 6, 1⟩ : CodedSymbol Nat)] <
      countSum (peel_one_symbol S0 d0 1 [CodedSymbol.new S0, ⟨[5], 6, 1⟩]).2 := by
  refine ⟨by decide, by decide⟩

/-! ## Algebra of apply, collapse and the encoded stream (claim C2) -/

theorem xorBytes_zero_left (l : List Nat) :
    xorBytes (List.replicate l.length 0) l = l := by
  induction l with
  | nil => rfl
  | cons x xs ih =>
    show (0 ^^^ x) :: xorBytes (List.replicate xs.length 0) xs = x :: xs
    rw [Nat.zero_xor, ih]

theorem xorBytes_cancel : ∀ (l e : List Nat), l.length = e.length →
    xorBytes (xorBytes l e) e = l := by
  intro l
  induction l with
  | nil => intro e h; rfl
  | cons x xs ih =>
    intro e h
    cases e with
    | nil => simp at h
    | cons y ys =>
      show (x ^^^ y ^^^ y) :: xorBytes (xorBytes xs ys) ys = x :: xs
      rw [Nat.xor_assoc, Nat.xor_self, Nat.xor_zero, ih ys (by simpa using h)]

theorem xorBytes_right_comm : ∀ (a b c : List Nat),
    xorBytes (xorBytes a b) c = xorBytes (xorBytes a c) b := by
  intro a
  induction a with
  | nil => intro b c; rfl
  | cons x xs ih =>
    intro b c
    cases b with
    | nil => cases c <;> rfl
    | cons y ys =>
      cases c with
      | nil => rfl
      | cons z zs =>
        show (x ^^^ y ^^^ z) :: xorBytes (xorBytes xs ys) zs =
          (x ^^^ z ^^^ y) :: xorBytes (xorBytes xs zs) ys
        rw [ih ys zs, Nat.xor_assoc, Nat.xor_comm y z, ← Nat.xor_assoc]

theorem apply_sum_length (S : SymbolSpec T) (c : CodedSymbol T) (s : T)
    (dir : Direction) (hl : c.sum.length = S.BYTE_ARRAY_LENGTH)
    (he : (S.encode_to_bytes s).length = S.BYTE_ARRAY_LENGTH) :
    (c.apply S s dir).sum.length = S.BYTE_ARRAY_LENGTH := by
  show (xorBytes c.sum (S.encode_to_bytes s)).length = S.BYTE_ARRAY_LENGTH
  rw [xorBytes, List.length_zipWith, hl, he]
  omega

theorem applyN_sum_length (S : SymbolSpec T) (s : T) (dir : Direction)
    (he : (S.encode_to_bytes s).length = S.BYTE_ARRAY_LENGTH) :
    ∀ (n : Nat) (c : CodedSymbol T), c.sum.length = S.BYTE_ARRAY_LENGTH →
      (applyN S s dir n c).sum.length = S.BYTE_ARRAY_LENGTH := by
  intro n
  induction n with
  | zero => intro c hc; exact hc
  | succ k ih =>
    intro c hc
    exact ih (c.apply S s dir) (apply_sum_length S c s dir hc he)

theorem apply_apply_comm (S : SymbolSpec T) (c : CodedSymbol T) (s : T)
    (dir1 dir2 : Direction) :
    (c.apply S s dir1).apply S s dir2 = (c.apply S s dir2).apply S s dir1 := by
  cases dir1 <;> cases dir2 <;> simp [CodedSymbol.apply]

theorem applyN_apply_push (S : SymbolSpec T) (s : T) (dir dir' : Direction) :
    ∀ (n : Nat) (c : CodedSymbol T),
      applyN S s dir n (c.apply S s dir') = (applyN S s dir n c).apply S s dir' := by
  intro n
  induction n with
  | zero => intro c; rfl
  | succ k ih =>
    intro c
    show applyN S s dir k ((c.apply S s dir').apply S s dir) = _
    rw [apply_apply_comm S c s dir' dir, ih]
    rfl

theorem apply_cancel (S : SymbolSpec T) (c : CodedSymbol T) (s : T)
    (hl : c.sum.length = S.BYTE_ARRAY_LENGTH)
    (he : (S.encode_to_bytes s).length = S.BYTE_ARRAY_LENGTH) :
    (c.apply S s Direction.Add).apply S s Direction.Remove = c := by
  cases c with
  | mk su ha co =>
    simp only [CodedSymbol.apply]
    rw [xorBytes_cancel su (S.encode_to_bytes s) (by simpa using hl.trans he.symm),
      Nat.xor_assoc, Nat.xor_self, Nat.xor_zero]
    congr 1
    ring

theorem applyN_cancel (S : SymbolSpec T) (s : T)
    (he : (S.encode_to_bytes s).length = S.BYTE_ARRAY_LENGTH) :
    ∀ (n : Nat) (c : CodedSymbol T), c.sum.length = S.BYTE_ARRAY_LENGTH →
      applyN S s Direction.Remove n (applyN S s Direction.Add n c) = c := by
  intro n
  induction n with
  | zero => intro c _; rfl
  | succ k ih =>
    intro c hc
    show applyN S s Direction.Remove k
      ((applyN S s Direction.Add k (c.apply S s Direction.Add)).apply S s
        Direction.Remove) = c
    rw [← applyN_apply_push S s Direction.Add Direction.Remove k
      (c.apply S s Direction.Add)]
    rw [apply_cancel S c s hc he]
    exact ih c hc

theorem xor_right_comm (a b c : Nat) : a ^^^ b ^^^ c = a ^^^ c ^^^ b := by
  rw [Nat.xor_assoc, Nat.xor_comm b c, ← Nat.xor_assoc]

theorem collapse_apply_left (S : SymbolSpec T) (c b : CodedSymbol T) (s : T)
    (dir : Direction) :
    CodedSymbol.collapse (c.apply S s dir) b =
      (CodedSymbol.collapse c b).apply S s dir := by
  cases dir <;>
    (simp only [CodedSymbol.collapse, CodedSymbol.apply];
      rw [xorBytes_right_comm, xor_right_comm];
      congr 1;
      ring)

theorem collapse_applyN_left (S : SymbolSpec T) (s : T) :
    ∀ (n : Nat) (c b : CodedSymbol T),
      CodedSymbol.collapse (applyN S s Direction.Add n c) b =
        applyN S s Direction.Add n (CodedSymbol.collapse c b) := by
  intro n
  induction n with
  | zero => intro c b; rfl
  | succ k ih =>
    intro c b
    show CodedSymbol.collapse (applyN S s Direction.Add k
      (c.apply S s Direction.Add)) b = _
    rw [ih, collapse_apply_left]
    rfl

theorem collapse_foldl_left (S : SymbolSpec T) (cnt : T → Nat) :
    ∀ (B : List T) (x y : CodedSymbol T),
      CodedSymbol.collapse
          (B.foldl (fun c item => applyN S item Direction.Add (cnt item) c) x) y =
        B.foldl (fun c item => applyN S item Direction.Add (cnt item) c)
          (CodedSymbol.collapse x y) := by
  intro B
  induction B with
  | nil => intro x y; rfl
  | cons a l ih =>
    intro x y
    show CodedSymbol.collapse
        (l.foldl _ (applyN S a Direction.Add (cnt a) x)) y = _
    rw [ih, collapse_applyN_left]
    rfl

theorem idealCell_append (S : SymbolSpec T) (d : Nat → Nat → Nat) (fuel : Nat)
    (A B : List T) (p : Nat) :
    idealCell S d fuel (A ++ B) p =
      B.foldl
        (fun c item => applyN S item Direction.Add (occCount d (S.hash_ item) p fuel) c)
        (idealCell S d fuel A p) := by
  unfold idealCell
  exact List.foldl_append _ _ A B

theorem foldl_applyN_sum_length (S : SymbolSpec T)
    (henc : ∀ t, (S.encode_to_bytes t).length = S.BYTE_ARRAY_LENGTH)
    (cnt : T → Nat) :
    ∀ (set : List T) (c : CodedSymbol T), c.sum.length = S.BYTE_ARRAY_LENGTH →
      ((set.foldl (fun c item => applyN S item Direction.Add (cnt item) c) c).sum.length
        = S.BYTE_ARRAY_LENGTH) := by
  intro set
  induction set with
  | nil => intro c hc; exact hc
  | cons a l ih =>
    intro c hc
    exact ih _ (applyN_sum_length S a Direction.Add (henc a) (cnt a) c hc)

theorem idealCell_sum_length (S : SymbolSpec T) (d : Nat → Nat → Nat) (fuel : Nat)
    (henc : ∀ t, (S.encode_to_bytes t).length = S.BYTE_ARRAY_LENGTH)
    (set : List T) (p : Nat) :
    (idealCell S d fuel set p).sum.length = S.BYTE_ARRAY_LENGTH := by
  unfold idealCell
  exact foldl_applyN_sum_length S henc _ set (CodedSymbol.new S)
    (by simp [CodedSymbol.new])

theorem collapse_idealCell (S : SymbolSpec T) (d : Nat → Nat → Nat) (fuel : Nat)
    (henc : ∀ t, (S.encode_to_bytes t).length = S.BYTE_ARRAY_LENGTH)
    (A B : List T) (p : Nat) :
    CodedSymbol.collapse (idealCell S d fuel (A ++ B) p) (idealCell S d fuel A p) =
      idealCell S d fuel B p := by
  rw [idealCell_append, collapse_foldl_left,
    collapse_self_cell S _ (idealCell_sum_length S d fuel henc A p)]
  rfl

theorem zipWith_getElem?_eq_some {α : Type} (f : α → α → α) :
    ∀ (a b : List α) (p : Nat) (x y : α), a[p]? = some x → b[p]? = some y →
      (List.zipWith f a b)[p]? = some (f x y) := by
  intro a
  induction a with
  | nil => intro b p x y hx hy; simp at hx
  | cons u us ih =>
    intro b p x y hx hy
    cases b with
    | nil => simp at hy
    | cons v vs =>
      cases p with
      | zero =>
        simp at hx hy
        subst hx
        subst hy
        simp
      | succ q =>
        simp at hx hy
        simpa using ih vs q x y hx hy

/-- The encoded stream of a set: a managed encoder freshly constructed over one
traversal of the set, extended to `index` (the coded symbols a sender streams). -/
def encStream (S : SymbolSpec T) (d : Nat → Nat → Nat) (fuel : Nat) (set : List T)
    (index : Nat) : List (CodedSymbol T) :=
  (RatelessIBLT.extend_coded_symbols S d fuel (RatelessIBLT.new S d fuel set)
    index).coded_symbols

theorem encStream_eq (S : SymbolSpec T) (d : Nat → Nat → Nat) (fuel : Nat)
    (set : List T) (index : Nat) :
    encStream S d fuel set index =
      extendSymbols S d fuel BLOCK_SIZE set
        (extendSymbols S d fuel BLOCK_SIZE set [] 0) index := rfl

theorem encStream_length (S : SymbolSpec T) (d : Nat → Nat → Nat) (fuel : Nat)
    (set : List T) (index : Nat) :
    (encStream S d fuel set index).length =
      if index < BLOCK_SIZE then BLOCK_SIZE
      else max (index + 1) (BLOCK_SIZE + BLOCK_SIZE) := by
  have h0 : (extendSymbols S d fuel BLOCK_SIZE set [] 0).length = BLOCK_SIZE := by
    rw [extendSymbols_length]
    norm_num [BLOCK_SIZE]
  rw [encStream_eq, extendSymbols_length, h0]

theorem encStream_get (S : SymbolSpec T) (d : Nat → Nat → Nat) (fuel : Nat)
    (set : List T) (index p : Nat) (hp : p < (encStream S d fuel set index).length) :
    (encStream S d fuel set index)[p]? = some (idealCell S d fuel set p) := by
  rw [encStream_eq] at hp ⊢
  exact isMaterialized_extend S d fuel BLOCK_SIZE set _ index
    (isMaterialized_extend S d fuel BLOCK_SIZE set [] 0
      (isMaterialized_nil S d fuel set)) p hp

/-- Collapsing the encoded stream of a disjoint union `A ++ B` (as local) against the
encoded stream of `A` (as remote) yields exactly the encoded stream of `B`. -/
theorem collapse_encStream (S : SymbolSpec T) (d : Nat → Nat → Nat) (fuel : Nat)
    (henc : ∀ t, (S.encode_to_bytes t).length = S.BYTE_ARRAY_LENGTH)
    (A B : List T) (idx : Nat) :
    collapse (encStream S d fuel (A ++ B) idx) (encStream S d fuel A idx) =
      encStream S d fuel B idx := by
  apply List.ext_getElem?
  intro p
  show (List.zipWith CodedSymbol.collapse (encStream S d fuel (A ++ B) idx)
    (encStream S d fuel A idx))[p]? = (encStream S d fuel B idx)[p]?
  by_cases hp : p < (encStream S d fuel B idx).length
  · have hpAB : p < (encStream S d fuel (A ++ B) idx).length := by
      rw [encStream_length] at hp ⊢
      exact hp
    have hpA : p < (encStream S d fuel A idx).length := by
      rw [encStream_length] at hp ⊢
      exact hp
    rw [zipWith_getElem?_eq_some CodedSymbol.collapse _ _ p _ _
        (encStream_get S d fuel (A ++ B) idx p hpAB)
        (encStream_get S d fuel A idx p hpA),
      encStream_get S d fuel B idx p hp,
      collapse_idealCell S d fuel henc A B p]
  · have hlen : (List.zipWith CodedSymbol.collapse (encStream S d fuel (A ++ B) idx)
        (encStream S d fuel A idx)).length ≤ p := by
      rw [List.length_zipWith, encStream_length, encStream_length]
      rw [encStream_length] at hp
      omega
    rw [List.getElem?_eq_none hlen, List.getElem?_eq_none (le_of_not_lt hp)]

/-! ## Peeling a singleton difference (claim C2) -/

theorem occCount_zero_pos (d : Nat → Nat → Nat) (h f : Nat) :
    1 ≤ occCount d h 0 (f + 1) := by
  show 1 ≤ List.count 0 (mapPosGo d (0 + 1) (f + 1) (RandomMapping.new h))
  rw [RandomMapping.new, mapPosGo_succ,
    if_pos (show (⟨h, 0⟩ : RandomMapping).last_idx < 0 + 1 from Nat.lt_succ_self 0)]
  rw [List.count_cons]
  simp

theorem is_peelable_new (S : SymbolSpec T) :
    (CodedSymbol.new S).is_peelable S = false := rfl

theorem peel_peek_new (S : SymbolSpec T) :
    (CodedSymbol.new S).peel_peek S = PeelableResult.NotPeelable := by
  simp [CodedSymbol.peel_peek, is_peelable_new]

theorem find_peelable_replicate_new (S : SymbolSpec T) :
    ∀ n, find_peelable S (List.replicate n (CodedSymbol.new S)) =
      PeelableResult.NotPeelable := by
  intro n
  induction n with
  | zero => rfl
  | succ k ih =>
    show find_peelable S (CodedSymbol.new S :: List.replicate k (CodedSymbol.new S)) = _
    simp [find_peelable, peel_peek_new S, ih]

theorem peel_one_replicate_new (S : SymbolSpec T) (d : Nat → Nat → Nat)
    (fuel n : Nat) :
    peel_one_symbol S d fuel (List.replicate n (CodedSymbol.new S)) =
      (PeelableResult.NotPeelable, List.replicate n (CodedSymbol.new S)) := by
  unfold peel_one_symbol
  rw [find_peelable_replicate_new S n]

theorem is_empty_replicate_new (S : SymbolSpec T) :
    ∀ n, is_empty (List.replicate n (CodedSymbol.new S)) = true := by
  intro n
  induction n with
  | zero => rfl
  | succ k ih =>
    show ((CodedSymbol.new S).is_empty &&
      is_empty (List.replicate k (CodedSymbol.new S))) = true
    rw [ih]
    rfl

/-- Peeling the encoded stream of a one-element set drains it: the element comes out
as a single `Local` result and every cell of the stream is reset. -/
theorem peel_encStream_single (S : SymbolSpec T) (d : Nat → Nat → Nat)
    (fuel g idx : Nat) (b : T)
    (henc : ∀ t, (S.encode_to_bytes t).length = S.BYTE_ARRAY_LENGTH)
    (hdec : S.decode_from_bytes (S.encode_to_bytes b) = b)
    (hocc : ∀ p, occCount d (S.hash_ b) p fuel ≤ 1)
    (hfuel : 0 < fuel) :
    peel_all_symbols S d fuel (g + 2) (encStream S d fuel [b] idx) =
      ([PeelableResult.Local b],
        List.replicate (encStream S d fuel [b] idx).length (CodedSymbol.new S)) := by
  have hlen : 0 < (encStream S d fuel [b] idx).length := by
    rw [encStream_length]
    by_cases h : idx < BLOCK_SIZE
    · rw [if_pos h]; norm_num [BLOCK_SIZE]
    · rw [if_neg h]; omega
  have h1 : occCount d (S.hash_ b) 0 fuel = 1 := by
    obtain ⟨f, rfl⟩ : ∃ f, fuel = f + 1 := ⟨fuel - 1, by omega⟩
    exact le_antisymm (hocc 0) (occCount_zero_pos d (S.hash_ b) f)
  have hcell0 : idealCell S d fuel [b] 0 =
      (CodedSymbol.new S).apply S b Direction.Add := by
    show applyN S b Direction.Add (occCount d (S.hash_ b) 0 fuel)
      (CodedSymbol.new S) = _
    rw [h1]
    rfl
  have happly : (CodedSymbol.new S).apply S b Direction.Add =
      ⟨S.encode_to_bytes b, S.hash_ b, 1⟩ := by
    show (⟨xorBytes (List.replicate S.BYTE_ARRAY_LENGTH 0) (S.encode_to_bytes b),
      0 ^^^ S.hash_ b, 0 + 1⟩ : CodedSymbol T) = _
    rw [← henc b, xorBytes_zero_left, Nat.zero_xor]
    rfl
  have hpeek : (idealCell S d fuel [b] 0).peel_peek S = PeelableResult.Local b := by
    rw [hcell0, happly]
    simp [CodedSymbol.peel_peek, CodedSymbol.is_peelable, hdec]
  have hfind : find_peelable S (encStream S d fuel [b] idx) =
      PeelableResult.Local b := by
    cases hst : encStream S d fuel [b] idx with
    | nil => rw [hst] at hlen; simp at hlen
    | cons c0 rest =>
      have hc0 : c0 = idealCell S d fuel [b] 0 := by
        have := encStream_get S d fuel [b] idx 0 hlen
        rw [hst] at this
        simpa using this
      show find_peelable S (c0 :: rest) = PeelableResult.Local b
      simp [find_peelable, hc0, hpeek]
  have hremove : applyAtPositions S (encStream S d fuel [b] idx)
      (mapPos d (S.hash_ b) (encStream S d fuel [b] idx).length fuel) b
      Direction.Remove =
      List.replicate (encStream S d fuel [b] idx).length (CodedSymbol.new S) := by
    apply List.ext_getElem?
    intro p
    rw [applyAtPositions_get]
    by_cases hp : p < (encStream S d fuel [b] idx).length
    · rw [encStream_get S d fuel [b] idx p hp,
        mapPos_count_congr d (S.hash_ b) p (encStream S d fuel [b] idx).length fuel hp,
        List.getElem?_replicate, if_pos hp]
      show some (applyN S b Direction.Remove (occCount d (S.hash_ b) p fuel)
        (applyN S b Direction.Add (occCount d (S.hash_ b) p fuel)
          (CodedSymbol.new S))) = some (CodedSymbol.new S)
      rw [applyN_cancel S b (henc b) (occCount d (S.hash_ b) p fuel)
        (CodedSymbol.new S) (by simp [CodedSymbol.new])]
    · rw [List.getElem?_eq_none (le_of_not_lt hp),
        List.getElem?_eq_none
          (show (List.replicate (encStream S d fuel [b] idx).length
            (CodedSymbol.new S)).length ≤ p by rw [List.length_replicate]; omega)]
      rfl
  have hone : peel_one_symbol S d fuel (encStream S d fuel [b] idx) =
      (PeelableResult.Local b,
        List.replicate (encStream S d fuel [b] idx).length (CodedSymbol.new S)) := by
    unfold peel_one_symbol
    rw [hfind]
    show (PeelableResult.Local b, remove_symbol_from_block S d fuel
      (encStream S d fuel [b] idx) (PeelableResult.Local b)) = _
    rw [remove_symbol_from_block]
    rw [hremove]
  have htwo : peel_all_symbols S d fuel (g + 1)
      (List.replicate (encStream S d fuel [b] idx).length (CodedSymbol.new S)) =
      ([], List.replicate (encStream S d fuel [b] idx).length (CodedSymbol.new S)) := by
    show peel_all_symbols S d fuel (g + 1) _ = _
    rw [peel_all_symbols, peel_one_replicate_new]
  show peel_all_symbols S d fuel (g + 1 + 1) (encStream S d fuel [b] idx) = _
  rw [peel_all_symbols, hone]
  show (match peel_all_symbols S d fuel (g + 1)
      (List.replicate (encStream S d fuel [b] idx).length (CodedSymbol.new S)) with
    | (rs, block'') => (PeelableResult.Local b :: rs, block'')) =
    ([PeelableResult.Local b],
      List.replicate (encStream S d fuel [b] idx).length (CodedSymbol.new S))
  rw [htwo]

/-- C2 (corrected).  For a disjoint union (modelled as the concatenated traversal
`A ++ B`), collapsing the encoded stream of `A ++ B` (as local/self) against the
encoded stream of `A` (as remote/other) yields exactly the encoded stream of `B` —
so the elements of `B` are local-only residues and can only surface as `Local`
results, not `Remote` ones as the claim states.  When `B` is a singleton whose
decode round-trips and whose mapped positions never repeat, peeling drains the
collapsed stream: the results are exactly `[Local b]` and the stream ends empty. -/
theorem c2_collapse_recovers_difference (S : SymbolSpec T) (d : Nat → Nat → Nat)
    (fuel : Nat)
    (henc : ∀ t, (S.encode_to_bytes t).length = S.BYTE_ARRAY_LENGTH)
    (A B : List T) (idx : Nat) :
    collapse (encStream S d fuel (A ++ B) idx) (encStream S d fuel A idx) =
      encStream S d fuel B idx
    ∧ (∀ b, B = [b] →
        S.decode_from_bytes (S.encode_to_bytes b) = b →
        (∀ p, occCount d (S.hash_ b) p fuel ≤ 1) →
        0 < fuel → ∀ g,
        (peel_all_symbols S d fuel (g + 2)
            (collapse (encStream S d fuel (A ++ B) idx)
              (encStream S d fuel A idx))).1 = [PeelableResult.Local b] ∧
        is_empty (peel_all_symbols S d fuel (g + 2)
            (collapse (encStream S d fuel (A ++ B) idx)
              (encStream S d fuel A idx))).2 = true) := by
  have hid := collapse_encStream S d fuel henc A B idx
  refine ⟨hid, ?_⟩
  intro b hB hdec hocc hfuel g
  subst hB
  rw [hid, peel_encStream_single S d fuel g idx b henc hdec hocc hfuel]
  exact ⟨rfl, is_empty_replicate_new S _⟩

/-- Witness for C2 (corrected): local set `{9, 5}`, remote set `{9}`; the collapsed
stream equals the encoded stream of `{5}` and peeling yields exactly `Local 5`. -/
theorem c2_collapse_recovers_difference_witness :
    (∀ t : Nat, (S0.encode_to_bytes t).length = S0.BYTE_ARRAY_LENGTH) ∧
    (S0.decode_from_bytes (S0.encode_to_bytes 5) = 5) ∧
    collapse (encStream S0 d0 1 ([9] ++ [5]) 0) (encStream S0 d0 1 [9] 0) =
      encStream S0 d0 1 [5] 0 ∧
    (peel_all_symbols S0 d0 1 (0 + 2)
        (collapse (encStream S0 d0 1 ([9] ++ [5]) 0)
          (encStream S0 d0 1 [9] 0))).1 = [PeelableResult.Local 5] := by
  have henc : ∀ t : Nat, (S0.encode_to_bytes t).length = S0.BYTE_ARRAY_LENGTH :=
    fun t => rfl
  have hocc : ∀ p, occCount d0 (S0.hash_ 5) p 1 ≤ 1 := by
    intro p
    exact le_trans (List.count_le_length p (mapPos d0 (S0.hash_ 5) (p + 1) 1))
      (mapPosGo_length_le d0 (p + 1) 1 (RandomMapping.new (S0.hash_ 5)))
  refine ⟨henc, by decide,
    (c2_collapse_recovers_difference S0 d0 1 henc [9] [5] 0).1, ?_⟩
  exact ((c2_collapse_recovers_difference S0 d0 1 henc [9] [5] 0).2 5 rfl
    (by decide) hocc (by decide) 0).1

/-- Counterexample for C2 as stated: with local `A ∪ B = {9, 5}` and remote
`A = {9}`, the claim predicts that peeling recovers `B = {5}` as `Remote` results
with no `Local` ones; the code produces no `Remote` result at all and recovers `5`
as `Local` (the sign convention is `+1` = local-only, and `B` is on the local
side). -/
theorem c2_counterexample_tags_reversed :
    ((peel_all_symbols S0 d0 1 2
        (collapse (encStream S0 d0 1 [9, 5] 0) (encStream S0 d0 1 [9] 0))).1.filter
        (fun r => match r with
          | PeelableResult.Remote _ => true
          | _ => false) = []) ∧
    ((peel_all_symbols S0 d0 1 2
        (collapse (encStream S0 d0 1 [9, 5] 0) (encStream S0 d0 1 [9] 0))).1 =
      [PeelableResult.Local 5]) := by
  refine ⟨by decide, by decide⟩
